import Mathlib

/-!
Verification of the parallel I/O and checkpoint/restart subsystem of the
heat-equation solver (`src/parallel-io/heat-restart/c/solution/io.c`).

Cell values (C `double`s) are modelled by an arbitrary type `α`: the I/O
code only moves them around, never computes with them, so exact (bit-for-bit)
equality of cells is equality in `α`.  Machine byte offsets are modelled as
`Nat` for the mathematical layout and, where 32-bit `int` wrap matters, as
`Int` reduced modulo `2^32` with signed interpretation.
-/

namespace HeatRestart

/-- A process-local padded tile, mirroring the C `field` struct:
`nx`/`ny` are the local interior dimensions, `nx_full`/`ny_full` the global
grid dimensions, and `data` the `(nx+2) × (ny+2)` padded array (interior
plus one-cell ghost border), stored as a list of rows. -/
structure Field (α : Type) where
  nx : Nat
  ny : Nat
  nx_full : Nat
  ny_full : Nat
  data : List (List α)
deriving DecidableEq

/-- The padded array has exactly `nx+2` rows of `ny+2` cells each. -/
def Field.wellFormed {α : Type} (f : Field α) : Prop :=
  f.data.length = f.nx + 2 ∧ ∀ row ∈ f.data, row.length = f.ny + 2

instance {α : Type} [DecidableEq α] (f : Field α) : Decidable f.wellFormed := by
  unfold Field.wellFormed; infer_instance

/-- Number of elements of the padded tile: `(nx + 2) * (ny + 2)`
(the C code's `size = (temperature->nx + 2) * (temperature->ny + 2)`). -/
def tileElems (nx ny : Nat) : Nat := (nx + 2) * (ny + 2)

/-- Row-major flattening of the padded tile, i.e. the contiguous memory
block starting at `&temperature->data[0][0]`. -/
def Field.flatten {α : Type} (f : Field α) : List α := f.data.flatten

/-- The interior of a tile: ghost layers stripped
(`&temperature->data[i+1][1]`, `ny` cells per row, `nx` rows). -/
def Field.interior {α : Type} (f : Field α) : List (List α) :=
  ((f.data.drop 1).take f.nx).map (fun row => (row.drop 1).take f.ny)

/-- Placeholder field used as the default of `List.getD` lookups. -/
def defaultField (α : Type) : Field α := ⟨0, 0, 0, 0, []⟩

/- ### Checkpoint byte offsets (write_restart lines 160-162, read_restart
lines 198-200).  `sizeof(int) = 4`, `sizeof(double) = 8`. -/

/-- Byte offset computed by `write_restart`
(`disp = 3 * sizeof(int); disp += rank * (ny+2) * (nx+2) * sizeof(double)`),
as the unbounded mathematical value. -/
def dispWriteBytes (rank nx ny : Nat) : Nat :=
  3 * 4 + rank * (ny + 2) * (nx + 2) * 8

/-- Byte offset computed by `read_restart` — textually the same expression
as in `write_restart`. -/
def dispReadBytes (rank nx ny : Nat) : Nat :=
  3 * 4 + rank * (ny + 2) * (nx + 2) * 8

/-- Header size in bytes: three 32-bit integers. -/
def headerBytes : Nat := 3 * 4

/-- Size in bytes of one padded tile: `(nx+2) * (ny+2) * sizeof(double)`. -/
def tileBytes (nx ny : Nat) : Nat := (nx + 2) * (ny + 2) * 8

/-- Byte `b` lies in the range written by rank `i`:
`[dispWriteBytes i, dispWriteBytes i + tileBytes)`. -/
def inWriteRange (i nx ny b : Nat) : Prop :=
  dispWriteBytes i nx ny ≤ b ∧ b < dispWriteBytes i nx ny + tileBytes nx ny

instance (i nx ny b : Nat) : Decidable (inWriteRange i nx ny b) := by
  unfold inWriteRange; infer_instance

/-- Total checkpoint file size: header plus `P` uniform tile blocks. -/
def totalFileBytes (P nx ny : Nat) : Nat := headerBytes + P * tileBytes nx ny

/- ### 32-bit wrap model of the `int disp` variable. -/

/-- Reduce an integer modulo `2^32` with signed (two's-complement)
interpretation, i.e. into `[-2^31, 2^31)`. -/
def toInt32 (n : Int) : Int := (n + 2 ^ 31) % 2 ^ 32 - 2 ^ 31

/-- The value actually stored in the 32-bit `int disp` by `write_restart`:
every intermediate `int` product wraps (signed overflow modelled as
two's-complement wrap), the promotion through `size_t` and the final store
back into `int` reduce modulo `2^32` with signed interpretation. -/
def dispWriteC (rank nx ny : Int) : Int :=
  toInt32 (3 * 4 + toInt32 (toInt32 (rank * (ny + 2)) * (nx + 2)) * 8)

/-- The value stored in `int disp` by `read_restart`: same expression. -/
def dispReadC (rank nx ny : Int) : Int :=
  toInt32 (3 * 4 + toInt32 (toInt32 (rank * (ny + 2)) * (nx + 2)) * 8)

/- ### Arithmetic lemmas about the offsets. -/

theorem toInt32_emod (n : Int) : toInt32 n % 2 ^ 32 = n % 2 ^ 32 := by
  unfold toInt32
  omega

theorem toInt32_congr {a b : Int} (h : a % 2 ^ 32 = b % 2 ^ 32) :
    toInt32 a = toInt32 b := by
  unfold toInt32
  omega

theorem toInt32_collapse (c k x : Int) :
    toInt32 (c + toInt32 x * k) = toInt32 (c + x * k) := by
  apply toInt32_congr
  conv_lhs => rw [Int.add_emod, Int.mul_emod, toInt32_emod, ← Int.mul_emod,
    ← Int.add_emod]

theorem dispWriteC_eq (rank nx ny : Int) :
    dispWriteC rank nx ny = toInt32 (3 * 4 + rank * (ny + 2) * (nx + 2) * 8) := by
  unfold dispWriteC
  rw [toInt32_collapse, mul_assoc, toInt32_collapse, ← mul_assoc]

theorem toInt32_lt (n : Int) : toInt32 n < 2 ^ 31 := by
  unfold toInt32; omega

theorem toInt32_of_range {n : Int} (h0 : 0 ≤ n) (h1 : n < 2 ^ 31) :
    toInt32 n = n := by
  unfold toInt32; omega

/- ### Checkpoint file model.

The checkpoint file is a 3-integer header followed by a payload of
`double`s; the payload is modelled at `double` (element) granularity: the
byte offset `dispWriteBytes rank nx ny` corresponds to payload element
index `rank * tileElems nx ny` (see `dispWriteBytes_elem`). -/

/-- Overwrite the region `[off, off + xs.length)` of a store, keeping the
content before and after (the semantics of a write-at-offset into an
existing file when `off ≤ store.length`, which holds in every use below). -/
def writeAt {α : Type} (store : List α) (off : Nat) (xs : List α) : List α :=
  store.take off ++ xs ++ store.drop (off + xs.length)

/-- A persisted checkpoint: `rows_full`, `cols_full`, `iteration` header
fields and the payload of tile elements. -/
structure CheckpointFile (α : Type) where
  rows : Nat
  cols : Nat
  iter : Int
  payload : List α
deriving DecidableEq

/-- A checkpoint file that does not yet exist (empty on creation). -/
def emptyCheckpoint (α : Type) : CheckpointFile α := ⟨0, 0, 0, []⟩

/-- The payload after the collective `MPI_File_write_at_all`: rank `r`
writes its flattened padded tile at element offset `r * tileElems nx ny`
(byte offset `dispWriteBytes r nx ny`), each rank using its own local
dimensions, over whatever payload the file held before. -/
def writeRestartPayload {α : Type} (fields : List (Field α)) (old : List α) :
    List α :=
  fields.enum.foldl
    (fun st rf => writeAt st (rf.1 * tileElems rf.2.nx rf.2.ny) rf.2.flatten)
    old

/-- The function `write_restart` (io.c lines 141-170): rank 0 writes the header
(`nx_full`, `ny_full`, `iter`), then all ranks collectively write their
padded tiles at their computed offsets.  The file is opened with
`MPI_MODE_CREATE | MPI_MODE_WRONLY`, which creates it if absent but does
not truncate an existing file, so the previous content `old` persists
wherever it is not overwritten. -/
def write_restart {α : Type} (fields : List (Field α)) (iter : Int)
    (old : CheckpointFile α) : CheckpointFile α :=
  match fields with
  | [] => { old with payload := writeRestartPayload [] old.payload }
  | f0 :: _ =>
      { rows := f0.nx_full, cols := f0.ny_full, iter := iter,
        payload := writeRestartPayload fields old.payload }

/-- Modelled from the spec: the Decomposition Descriptor
(`parallel_setup`, declared in `heat.h` but not part of the given source)
"yields each process's local row count" from the global dimensions and the
process count; §9 states the decomposition is uniform (each process gets
`rows / P` rows; the uneven case is not exercised). -/
def parallel_setup (rows P : Nat) : Nat := rows / P

/-- Split a flat list into `rows` rows of `cols` elements each (the layout
of a `malloc_2d (rows) (cols)` contiguous block filled by a read). -/
def reshape {α : Type} : Nat → Nat → List α → List (List α)
  | 0, _, _ => []
  | rows + 1, cols, xs => xs.take cols :: reshape rows cols (xs.drop cols)

/-- The function `read_restart` (io.c lines 174-208) for one rank: read the header
collectively, derive the local dimensions from it (via `parallel_setup` and
`set_field_dimensions`, the latter modelled from the spec's Decomposition
Descriptor contract), allocate the padded tile (`allocate_field`, external;
its contents are fully overwritten by the collective read), and read
`tileElems` elements at the offset computed from this rank and the freshly
computed local dimensions.  There is no comparison between the reading
process count `P` and the count the file was written with. -/
def read_restart {α : Type} (file : CheckpointFile α) (P rank : Nat) :
    Field α × Int :=
  let nxLocal := parallel_setup file.rows P
  let elems := tileElems nxLocal file.cols
  let raw := (file.payload.drop (rank * elems)).take elems
  (⟨nxLocal, file.cols, file.rows, file.cols,
    reshape (nxLocal + 2) (file.cols + 2) raw⟩, file.iter)

/-- The byte offset of the checkpoint write corresponds to element index
`rank * tileElems nx ny` of the payload: header plus 8 bytes per element. -/
theorem dispWriteBytes_elem (rank nx ny : Nat) :
    dispWriteBytes rank nx ny = headerBytes + rank * tileElems nx ny * 8 := by
  unfold dispWriteBytes headerBytes tileElems
  ring

/- ### Payload layout lemmas. -/

theorem Field.flatten_length {α : Type} (f : Field α) (h : f.wellFormed) :
    f.flatten.length = tileElems f.nx f.ny := by
  obtain ⟨hrows, hcols⟩ := h
  unfold Field.flatten tileElems
  rw [List.length_flatten]
  have hmap : f.data.map List.length = List.replicate (f.nx + 2) (f.ny + 2) := by
    rw [List.eq_replicate_iff]
    refine ⟨by simpa using hrows, ?_⟩
    intro b hb
    obtain ⟨row, hrow, rfl⟩ := List.mem_map.mp hb
    exact hcols row hrow
  rw [hmap, List.sum_replicate, smul_eq_mul]

/-- Effect of the collective write on the payload, fold unrolled from rank
`n` on: with the first `n` tiles already in place (`pre`), the remaining
ranks append their tiles in rank order and the old file content beyond the
written region survives. -/
theorem writeRestartPayload_go {α : Type} (L : Nat) (fs : List (Field α)) :
    ∀ (n : Nat) (pre old : List α), pre.length = n * L →
    (∀ f ∈ fs, tileElems f.nx f.ny = L ∧ f.flatten.length = L) →
    (fs.enumFrom n).foldl
      (fun st rf => writeAt st (rf.1 * tileElems rf.2.nx rf.2.ny) rf.2.flatten)
      (pre ++ old.drop (n * L)) =
    pre ++ (fs.map Field.flatten).flatten ++ old.drop ((n + fs.length) * L) := by
  induction fs with
  | nil => intro n pre old hpre _; simp
  | cons f fs ih =>
      intro n pre old hpre hdims
      obtain ⟨hf1, hf2⟩ := hdims f (by simp)
      have step : writeAt (pre ++ old.drop (n * L))
          (n * tileElems f.nx f.ny) f.flatten
          = (pre ++ f.flatten) ++ old.drop ((n + 1) * L) := by
        unfold writeAt
        rw [hf1, ← hpre, List.take_left, hf2, List.drop_append, List.drop_drop]
        have h3 : pre.length + L = (n + 1) * L := by rw [hpre]; ring
        simp [h3, List.append_assoc]
      have hpre' : (pre ++ f.flatten).length = (n + 1) * L := by
        rw [List.length_append, hpre, hf2]; ring
      have ihres := ih (n + 1) (pre ++ f.flatten) old hpre'
        (fun g hg => hdims g (by simp [hg]))
      simp only [List.enumFrom, List.foldl_cons, step]
      rw [ihres]
      have : n + 1 + fs.length = n + (fs.length + 1) := by ring
      simp [this, List.append_assoc]

/-- The payload written by `write_restart` over an existing file is the
tiles in rank order followed by whatever old content lies beyond them. -/
theorem writeRestartPayload_eq {α : Type} (L : Nat) (fs : List (Field α))
    (old : List α)
    (hdims : ∀ f ∈ fs, tileElems f.nx f.ny = L ∧ f.flatten.length = L) :
    writeRestartPayload fs old
      = (fs.map Field.flatten).flatten ++ old.drop (fs.length * L) := by
  have h := writeRestartPayload_go L fs 0 [] old (by simp) hdims
  simpa [writeRestartPayload, List.enum] using h

/-- Reading back the slice of rank `r` from the concatenated tiles
recovers exactly rank `r`'s flattened tile. -/
theorem flatten_slice {α : Type} (L : Nat) (fs : List (Field α)) :
    ∀ r : Nat, r < fs.length →
    (∀ f ∈ fs, f.flatten.length = L) →
    ((fs.map Field.flatten).flatten.drop (r * L)).take L
      = (fs.getD r (defaultField α)).flatten := by
  induction fs with
  | nil => intro r hr _; simp at hr
  | cons f fs ih =>
      intro r hr hlen
      have hf : f.flatten.length = L := hlen f (by simp)
      cases r with
      | zero =>
          simp only [List.map_cons, List.flatten_cons, Nat.zero_mul,
            List.drop_zero, List.getD_cons_zero]
          rw [List.take_append_of_le_length (by omega), ← hf, List.take_length]
      | succ r =>
          have harith : (r + 1) * L = f.flatten.length + r * L := by
            rw [hf]; ring
          simp only [List.map_cons, List.flatten_cons, List.getD_cons_succ]
          rw [harith, List.drop_append]
          exact ih r (by simpa using hr) (fun g hg => hlen g (by simp [hg]))

/-- Reshaping undoes flattening for a well-formed row list. -/
theorem reshape_flatten {α : Type} (rows : List (List α)) (c : Nat)
    (h : ∀ row ∈ rows, row.length = c) :
    reshape rows.length c rows.flatten = rows := by
  induction rows with
  | nil => rfl
  | cons row rest ih =>
      have hrow : row.length = c := h row (by simp)
      simp only [List.length_cons, reshape, List.flatten_cons]
      rw [List.take_append_of_le_length (by omega), ← hrow, List.take_length,
        List.drop_left, hrow]
      exact congrArg _ (ih (fun x hx => h x (by simp [hx])))

/- ### Concrete instances used as witnesses and counterexamples:
two processes, 1×1 interior tiles (3×3 padded), global grid 2×1. -/

/-- Rank 0's padded tile: interior value 10, ghost cells 0,1,2,3,5,6,7,8. -/
def cF0 : Field Nat := ⟨1, 1, 2, 1, [[0, 1, 2], [3, 10, 5], [6, 7, 8]]⟩

/-- Rank 1's padded tile: interior value 20. -/
def cF1 : Field Nat := ⟨1, 1, 2, 1, [[9, 11, 12], [13, 20, 15], [16, 17, 18]]⟩

/-- A pre-existing checkpoint file with a 49-element payload. -/
def cOld49 : CheckpointFile Nat := ⟨5, 5, 3, List.replicate 49 99⟩

/-- C1: writing a restart checkpoint and reading it back with the same
process count reproduces every process's padded tile — interior and ghost
cells — bit-for-bit, together with the iteration number.  Hypotheses: a
uniform row decomposition (`nx_full = P * nx`, all local dimensions equal)
and well-formed padded tiles.  `parallel_setup` is modelled from the spec
(uniform decomposition); the read fills the freshly allocated tile
entirely, so the allocator's initial contents are irrelevant. -/
theorem C1_restart_round_trip {α : Type} (fields : List (Field α)) (iter : Int)
    (nx ny r : Nat)
    (hP : 0 < fields.length)
    (hwf : ∀ f ∈ fields, f.wellFormed ∧ f.nx = nx ∧ f.ny = ny)
    (hrows : (fields.getD 0 (defaultField α)).nx_full = fields.length * nx)
    (hcols : (fields.getD 0 (defaultField α)).ny_full = ny)
    (hr : r < fields.length) :
    read_restart (write_restart fields iter (emptyCheckpoint α))
        fields.length r
      = (⟨nx, ny, fields.length * nx, ny,
          (fields.getD r (defaultField α)).data⟩, iter) := by
  cases fields with
  | nil => simp at hP
  | cons f0 rest =>
      have hdims : ∀ f ∈ f0 :: rest,
          tileElems f.nx f.ny = tileElems nx ny ∧
          f.flatten.length = tileElems nx ny := by
        intro f hf
        obtain ⟨hwff, hnx, hny⟩ := hwf f hf
        exact ⟨by rw [hnx, hny], by rw [Field.flatten_length f hwff, hnx, hny]⟩
      have hpayload : writeRestartPayload (f0 :: rest) [] =
          ((f0 :: rest).map Field.flatten).flatten := by
        rw [writeRestartPayload_eq (tileElems nx ny) _ _ hdims]
        simp
      simp only [List.getD_cons_zero] at hrows hcols
      have hfr : (f0 :: rest).getD r (defaultField α) ∈ f0 :: rest := by
        rw [List.getD_eq_getElem _ _ hr]
        exact List.getElem_mem hr
      obtain ⟨hwfr, hnxr, hnyr⟩ := hwf _ hfr
      have hslice := flatten_slice (tileElems nx ny) (f0 :: rest) r hr
        (fun f hf => (hdims f hf).2)
      have hdiv : (f0 :: rest).length * nx / (f0 :: rest).length = nx :=
        Nat.mul_div_cancel_left nx hP
      have hreshape : reshape (nx + 2) (ny + 2)
          ((f0 :: rest).getD r (defaultField α)).flatten
          = ((f0 :: rest).getD r (defaultField α)).data := by
        have h1 := reshape_flatten ((f0 :: rest).getD r (defaultField α)).data
          (ny + 2) (by
            intro row hrow
            rw [hwfr.2 row hrow, hnyr])
        rw [hwfr.1, hnxr] at h1
        exact h1
      simp only [write_restart, read_restart, emptyCheckpoint, hpayload,
        hrows, hcols, parallel_setup, hdiv, hslice, hreshape]

/-- Witness for C1: the round trip at process count 2, 1×1 interior tiles,
rank 1, iteration 7, reproduces rank 1's padded tile and the iteration. -/
theorem C1_restart_round_trip_witness :
    read_restart (write_restart [cF0, cF1] 7 (emptyCheckpoint Nat)) 2 1
      = (⟨1, 1, 2, 1, [[9, 11, 12], [13, 20, 15], [16, 17, 18]]⟩, 7) := by
  have h := C1_restart_round_trip [cF0, cF1] 7 1 1 1 (by decide)
    (by decide) (by decide) (by decide) (by decide)
  simpa [cF1] using h

/-- C2: `read_restart` contains no comparison of the reading process count
with the one the checkpoint was written with; restarting a 2-process
checkpoint with 1 process proceeds silently and reads bytes at wrong
offsets.  Concretely, it returns normally (iteration 5), and the tile it
reconstructs has interior `[[10], [7]]` — cell 7 is a ghost cell of rank
0's old tile — instead of the checkpointed global interior `[[10], [20]]`. -/
theorem C2_mismatched_restart_not_rejected :
    (read_restart (write_restart [cF0, cF1] 5 (emptyCheckpoint Nat)) 1 0).1.interior
        = [[10], [7]] ∧
    (read_restart (write_restart [cF0, cF1] 5 (emptyCheckpoint Nat)) 1 0).1.interior
        ≠ [[10], [20]] ∧
    (read_restart (write_restart [cF0, cF1] 5 (emptyCheckpoint Nat)) 1 0).2 = 5 := by
  refine ⟨by decide, by decide, by decide⟩

/-- C6 counterexample: `write_restart` opens with
`MPI_MODE_CREATE | MPI_MODE_WRONLY`, which does not truncate.  Writing a
2-process checkpoint (header + 18 payload elements) over an existing file
whose payload holds 49 elements leaves a 49-element payload, not exactly
the header followed by the two tile blocks. -/
theorem C6_no_truncate_counterexample :
    (write_restart [cF0, cF1] 4 cOld49).payload
        ≠ ([cF0, cF1].map Field.flatten).flatten ∧
    (write_restart [cF0, cF1] 4 cOld49).payload.length = 49 ∧
    (([cF0, cF1].map Field.flatten).flatten).length = 18 := by
  refine ⟨by decide, by decide, by decide⟩

/-- C6 amended: `write_restart` opens the checkpoint create-if-absent and
write-only (no truncation).  After it completes, the header and the first
`P` tile blocks are exactly the newly written data, but any bytes of a
previous larger checkpoint beyond offset `headerBytes + P * tileBytes`
remain in the file. -/
theorem C6_write_restart_overwrites_prefix {α : Type} (fields : List (Field α))
    (iter : Int) (old : CheckpointFile α) (nx ny : Nat)
    (hP : 0 < fields.length)
    (hwf : ∀ f ∈ fields, f.wellFormed ∧ f.nx = nx ∧ f.ny = ny) :
    (write_restart fields iter old).rows
        = (fields.getD 0 (defaultField α)).nx_full ∧
    (write_restart fields iter old).cols
        = (fields.getD 0 (defaultField α)).ny_full ∧
    (write_restart fields iter old).iter = iter ∧
    (write_restart fields iter old).payload
        = (fields.map Field.flatten).flatten
            ++ old.payload.drop (fields.length * tileElems nx ny) := by
  cases fields with
  | nil => simp at hP
  | cons f0 rest =>
      have hdims : ∀ f ∈ f0 :: rest,
          tileElems f.nx f.ny = tileElems nx ny ∧
          f.flatten.length = tileElems nx ny := by
        intro f hf
        obtain ⟨hwff, hnx, hny⟩ := hwf f hf
        exact ⟨by rw [hnx, hny], by rw [Field.flatten_length f hwff, hnx, hny]⟩
      refine ⟨rfl, rfl, rfl, ?_⟩
      exact writeRestartPayload_eq (tileElems nx ny) _ _ hdims

/-- Witness for C6's amended statement at the concrete pre-existing file. -/
theorem C6_write_restart_overwrites_prefix_witness :
    (write_restart [cF0, cF1] (4 : Int) cOld49).rows
        = ([cF0, cF1].getD 0 (defaultField Nat)).nx_full ∧
    (write_restart [cF0, cF1] (4 : Int) cOld49).cols
        = ([cF0, cF1].getD 0 (defaultField Nat)).ny_full ∧
    (write_restart [cF0, cF1] (4 : Int) cOld49).iter = 4 ∧
    (write_restart [cF0, cF1] (4 : Int) cOld49).payload
        = ([cF0, cF1].map Field.flatten).flatten
            ++ cOld49.payload.drop ([cF0, cF1].length * tileElems 1 1) :=
  C6_write_restart_overwrites_prefix [cF0, cF1] 4 cOld49 1 1 (by decide)
    (by decide)

theorem tileBytes_pos (nx ny : Nat) : 0 < tileBytes nx ny := by
  unfold tileBytes; positivity

theorem dispWriteBytes_eq (i nx ny : Nat) :
    dispWriteBytes i nx ny = headerBytes + i * tileBytes nx ny := by
  unfold dispWriteBytes headerBytes tileBytes; ring

/-- C3: the byte offset computed by `read_restart` is the same function of
`(rank, local_rows, local_cols)` as the one computed by `write_restart`:
both the idealised byte offsets and the 32-bit `int` values agree, and both
equal `3*sizeof(int) + rank*(local_rows+2)*(local_cols+2)*sizeof(double)`. -/
theorem C3_read_write_offsets_agree (rank nx ny : Nat) (r x y : Int) :
    dispWriteBytes rank nx ny = dispReadBytes rank nx ny ∧
    dispWriteBytes rank nx ny = 3 * 4 + rank * ((nx + 2) * (ny + 2)) * 8 ∧
    dispWriteC r x y = dispReadC r x y := by
  refine ⟨rfl, ?_, rfl⟩
  unfold dispWriteBytes; ring

/-- C4: for `P` processes with uniform tile byte size `T = tileBytes nx ny`
and header size `H = headerBytes`, the `P` write ranges
`[H + iT, H + (i+1)T)` are pairwise disjoint, contiguous (each begins where
the previous ends), and together with the `H` header bytes they cover
exactly the bytes of the total file size `H + P*T`. -/
theorem C4_write_ranges_partition (P nx ny : Nat) :
    (∀ i j b, i < P → j < P → i ≠ j →
        ¬(inWriteRange i nx ny b ∧ inWriteRange j nx ny b)) ∧
    (∀ i, dispWriteBytes (i + 1) nx ny
        = dispWriteBytes i nx ny + tileBytes nx ny) ∧
    (∀ b, b < totalFileBytes P nx ny ↔
        (b < headerBytes ∨ ∃ i, i < P ∧ inWriteRange i nx ny b)) := by
  have hT : 0 < tileBytes nx ny := tileBytes_pos nx ny
  refine ⟨?_, ?_, ?_⟩
  · have key : ∀ i j b, i < j →
        ¬(inWriteRange i nx ny b ∧ inWriteRange j nx ny b) := by
      intro i j b hij ⟨⟨hi1, hi2⟩, hj1, hj2⟩
      rw [dispWriteBytes_eq] at hi1 hi2 hj1 hj2
      have h1 : (i + 1) * tileBytes nx ny ≤ j * tileBytes nx ny :=
        Nat.mul_le_mul_right _ hij
      have h2 : (i + 1) * tileBytes nx ny
          = i * tileBytes nx ny + tileBytes nx ny := by ring
      omega
    intro i j b _ _ hij hboth
    rcases Nat.lt_or_ge i j with h | h
    · exact key i j b h hboth
    · exact key j i b (lt_of_le_of_ne h (Ne.symm hij)) ⟨hboth.2, hboth.1⟩
  · intro i
    rw [dispWriteBytes_eq, dispWriteBytes_eq]
    ring
  · intro b
    unfold totalFileBytes inWriteRange
    constructor
    · intro hb
      by_cases hbh : b < headerBytes
      · exact Or.inl hbh
      · right
        push_neg at hbh
        refine ⟨(b - headerBytes) / tileBytes nx ny, ?_, ?_⟩
        · rw [Nat.div_lt_iff_lt_mul hT]
          omega
        · rw [dispWriteBytes_eq]
          have hml : (b - headerBytes) / tileBytes nx ny * tileBytes nx ny
              ≤ b - headerBytes := Nat.div_mul_le_self _ _
          have hdm := Nat.div_add_mod (b - headerBytes) (tileBytes nx ny)
          have hmod : (b - headerBytes) % tileBytes nx ny < tileBytes nx ny :=
            Nat.mod_lt _ hT
          have hcomm : tileBytes nx ny * ((b - headerBytes) / tileBytes nx ny)
              = (b - headerBytes) / tileBytes nx ny * tileBytes nx ny :=
            Nat.mul_comm _ _
          omega
    · rintro (hbh | ⟨i, hi, h1, h2⟩)
      · have : 0 ≤ P * tileBytes nx ny := Nat.zero_le _
        omega
      · rw [dispWriteBytes_eq] at h1 h2
        have h3 : (i + 1) * tileBytes nx ny ≤ P * tileBytes nx ny :=
          Nat.mul_le_mul_right _ hi
        have h4 : (i + 1) * tileBytes nx ny
            = i * tileBytes nx ny + tileBytes nx ny := by ring
        omega

/-- Witness for C4 at `P = 2`, `nx = ny = 1`: byte 20 lies only in rank 0's
range, the ranges are contiguous, and byte 40 is covered by some rank. -/
theorem C4_write_ranges_partition_witness :
    ¬(inWriteRange 0 1 1 20 ∧ inWriteRange 1 1 1 20) ∧
    dispWriteBytes 1 1 1 = dispWriteBytes 0 1 1 + tileBytes 1 1 ∧
    (40 < totalFileBytes 2 1 1 ↔
      (40 < headerBytes ∨ ∃ i, i < 2 ∧ inWriteRange i 1 1 40)) := by
  obtain ⟨h1, h2, h3⟩ := C4_write_ranges_partition 2 1 1
  exact ⟨h1 0 1 20 (by decide) (by decide) (by decide), h2 0, h3 40⟩

/-- C10: the `int disp` offset variable of `write_restart`/`read_restart`
is computed in 32-bit arithmetic: the stored value equals the mathematical
offset `3*sizeof(int) + rank*(nx+2)*(ny+2)*sizeof(double)` exactly when
that value is below `2^31`; in general it is the mathematical value
reduced modulo `2^32` with signed interpretation, identically in the
writer and the reader. -/
theorem C10_disp_wraps_at_2_31 (rank nx ny : Nat) :
    dispWriteC rank nx ny = dispReadC rank nx ny ∧
    dispWriteC rank nx ny
      = toInt32 (3 * 4 + (rank : Int) * ((ny : Int) + 2) * ((nx : Int) + 2) * 8) ∧
    (3 * 4 + (rank : Int) * ((ny : Int) + 2) * ((nx : Int) + 2) * 8
      = 3 * 4 + (rank : Int) * (((nx : Int) + 2) * ((ny : Int) + 2)) * 8) ∧
    ((dispWriteC rank nx ny
        = 3 * 4 + (rank : Int) * ((ny : Int) + 2) * ((nx : Int) + 2) * 8)
      ↔ 3 * 4 + (rank : Int) * ((ny : Int) + 2) * ((nx : Int) + 2) * 8 < 2 ^ 31) := by
  have h0 : (0 : Int) ≤ 3 * 4 + (rank : Int) * ((ny : Int) + 2) * ((nx : Int) + 2) * 8 := by
    positivity
  refine ⟨rfl, dispWriteC_eq _ _ _, by ring, ?_⟩
  rw [dispWriteC_eq]
  constructor
  · intro h
    rw [← h]
    exact toInt32_lt _
  · intro h
    exact toInt32_of_range h0 h

/- ### Indexed update loops.

Both `read_field`'s ghost filling and `write_field`'s gather assembly are C
`for` loops that update row `base + k` of a 2D array in place for
`k = 0 .. n-1`, reading only the row they update.  `loopUpdate` is that
loop shape; the lemmas characterise the result row by row. -/

/-- Run `row[base+k] := g k row[base+k]` for `k = 0 .. n-1`. -/
def loopUpdate {β : Type} (e : β) (base n : Nat) (g : Nat → β → β)
    (d : List β) : List β :=
  (List.range n).foldl
    (fun st k => st.set (base + k) (g k (st.getD (base + k) e))) d

theorem getD_set_self {α : Type} (l : List α) (i : Nat) (a d : α)
    (h : i < l.length) : (l.set i a).getD i d = a := by
  rw [List.getD_eq_getElem?_getD, List.getElem?_set_self']
  simp [List.getElem?_eq_getElem h]

theorem getD_set_ne {α : Type} (l : List α) (i j : Nat) (a d : α)
    (h : i ≠ j) : (l.set i a).getD j d = l.getD j d := by
  rw [List.getD_eq_getElem?_getD, List.getElem?_set_ne h,
    ← List.getD_eq_getElem?_getD]

theorem loopUpdate_succ {β : Type} (e : β) (base n : Nat) (g : Nat → β → β)
    (d : List β) :
    loopUpdate e base (n + 1) g d
      = (loopUpdate e base n g d).set (base + n)
          (g n ((loopUpdate e base n g d).getD (base + n) e)) := by
  unfold loopUpdate
  rw [List.range_succ, List.foldl_append]
  rfl

theorem loopUpdate_length {β : Type} (e : β) (base n : Nat) (g : Nat → β → β)
    (d : List β) : (loopUpdate e base n g d).length = d.length := by
  induction n with
  | zero => rfl
  | succ n ih => rw [loopUpdate_succ, List.length_set, ih]

theorem loopUpdate_getD_outside {β : Type} (e e' : β) (base n : Nat)
    (g : Nat → β → β) (d : List β) (j : Nat) (hj : j < base ∨ base + n ≤ j) :
    (loopUpdate e base n g d).getD j e' = d.getD j e' := by
  induction n with
  | zero => rfl
  | succ n ih =>
      rw [loopUpdate_succ, getD_set_ne _ _ _ _ _ (by omega)]
      exact ih (by omega)

theorem loopUpdate_getD_inside {β : Type} (e : β) (base n : Nat)
    (g : Nat → β → β) (d : List β) (k : Nat) (hk : k < n)
    (hlen : base + k < d.length) :
    (loopUpdate e base n g d).getD (base + k) e
      = g k (d.getD (base + k) e) := by
  induction n with
  | zero => omega
  | succ n ih =>
      rw [loopUpdate_succ]
      rcases Nat.lt_or_ge k n with h | h
      · rw [getD_set_ne _ _ _ _ _ (by omega)]
        exact ih h
      · have hkn : k = n := by omega
        subst hkn
        rw [getD_set_self _ _ _ _ (by rw [loopUpdate_length]; exact hlen),
          loopUpdate_getD_outside _ _ _ _ _ _ _ (Or.inr (le_refl _))]

theorem writeAt_length {α : Type} (l : List α) (off : Nat) (xs : List α)
    (h : off + xs.length ≤ l.length) :
    (writeAt l off xs).length = l.length := by
  unfold writeAt
  simp only [List.length_append, List.length_take, List.length_drop]
  omega

theorem reshape_length {α : Type} (n c : Nat) (xs : List α) :
    (reshape n c xs).length = n := by
  induction n generalizing xs with
  | zero => rfl
  | succ n ih => simp [reshape, ih]

theorem reshape_row_length {α : Type} (n c : Nat) (xs : List α)
    (h : n * c ≤ xs.length) :
    ∀ row ∈ reshape n c xs, row.length = c := by
  induction n generalizing xs with
  | zero => intro row hrow; simp [reshape] at hrow
  | succ n ih =>
      intro row hrow
      simp only [reshape, List.mem_cons] at hrow
      rcases hrow with hrow | hrow
      · subst hrow
        rw [List.length_take]
        have : (n + 1) * c = n * c + c := by ring
        omega
      · refine ih (xs.drop c) ?_ row hrow
        rw [List.length_drop]
        have : (n + 1) * c = n * c + c := by ring
        omega

/- ### Initial-condition load (`read_field`, io.c lines 65-137). -/

/-- Observable calls made by `read_field`, in program order.  `openFile`
records whether `fopen` returned a valid handle; `readHeader` records
whether the handle passed to `fscanf` was valid.  `scatter` is the only
collective call of the routine. -/
inductive Event
  | openFile (ok : Bool)
  | readHeader (handleValid : Bool)
  | abort
  | allocField
  | scatter
  | copyFieldCall
deriving DecidableEq

/-- An initial-condition text file, already tokenised: the integers the
header line `# %d %d` successfully matches (in order), and the whitespace
separated values after it. -/
structure TextFile (α : Type) where
  header : List Int
  values : List α
deriving DecidableEq

/-- Modelled from the spec: `copy_field` (declared in `heat.h`, not part of
the given source) duplicates the loaded tile into the second, "next
timestep" tile: "The loaded tile is duplicated into a second tile". -/
def copy_field {α : Type} (f : Field α) : Field α := f

/-- An allocated-but-uninitialised `(nx+2) × (ny+2)` padded array
(`malloc_2d`); the unknown memory contents are `dflt`. -/
def allocPadded {α : Type} (nx ny : Nat) (dflt : α) : List (List α) :=
  List.replicate (nx + 2) (List.replicate (ny + 2) dflt)

/-- The interior copy loop (io.c lines 117-119):
`memcpy(&temperature1->data[i+1][1], &inner_data[i][0], ny*sizeof(double))`
for `i = 0 .. nx_local-1`. -/
def setInterior {α : Type} (nx ny : Nat) (inner : List (List α))
    (d : List (List α)) : List (List α) :=
  loopUpdate [] 1 nx (fun i row => writeAt row 1 ((inner.getD i []).take ny)) d

/-- One step of the left/right ghost-column loop (io.c lines 123-124):
`data[i][0] = data[i][1]; data[i][ny+1] = data[i][ny]`, in that order. -/
def mirrorLR {α : Type} (ny : Nat) (dflt : α) (row : List α) : List α :=
  let r1 := row.set 0 (row.getD 1 dflt)
  r1.set (ny + 1) (r1.getD ny dflt)

/-- The left/right ghost-column loop over interior rows `i = 1 .. nx`. -/
def mirrorCols {α : Type} (nx ny : Nat) (dflt : α) (d : List (List α)) :
    List (List α) :=
  loopUpdate [] 1 nx (fun _ row => mirrorLR ny dflt row) d

/-- The top/bottom ghost-row loop (io.c lines 126-130): for every
`j = 0 .. ny+1` (the full padded width), `data[0][j] = data[1][j]` and
`data[nx+1][j] = data[nx][j]` — i.e. whole-row copies, the second reading
the state after the first. -/
def mirrorRows {α : Type} (nx : Nat) (d : List (List α)) : List (List α) :=
  let d1 := d.set 0 (d.getD 1 [])
  d1.set (nx + 1) (d1.getD nx [])

/-- A rank's padded tile as built by `read_field` after the scatter:
allocate, copy the received interior in, mirror the ghost columns, then
mirror the ghost rows. -/
def buildTile {α : Type} (nx ny : Nat) (dflt : α)
    (inner : List (List α)) : List (List α) :=
  mirrorRows nx (mirrorCols nx ny dflt (setInterior nx ny inner
    (allocPadded nx ny dflt)))

/-- The function `read_field` (io.c lines 65-137), for the whole process group.
`input = none` models an `fopen` failure: the code does not test the
returned handle and calls `fscanf` on it regardless (modelled as matching
no items, after which `count < 2` triggers `MPI_Abort`).  A header with
fewer than two integers likewise aborts before any collective call.
Otherwise rank 0 reads `rows × cols` values, `MPI_Scatter` hands rank `r`
the `r`-th contiguous `nx_local × ny` block, and every rank builds its
padded tile and duplicates it (`copy_field`, modelled from the spec).
`MPI_Abort` terminates the group, modelled as an early return with no
result. -/
def read_field {α : Type} (input : Option (TextFile α)) (P : Nat)
    (dflt : α) : List Event × Option (List (Field α × Field α)) :=
  match input with
  | none => ([.openFile false, .readHeader false, .abort], none)
  | some tf =>
      if (tf.header.take 2).length < 2 then
        ([.openFile true, .readHeader true, .abort], none)
      else
        let nxg := (tf.header.getD 0 0).toNat
        let nyg := (tf.header.getD 1 0).toNat
        let nxLocal := parallel_setup nxg P
        let tiles := (List.range P).map (fun r =>
          let inner := reshape nxLocal nyg
            ((tf.values.drop (r * (nxLocal * nyg))).take (nxLocal * nyg))
          let t1 : Field α :=
            ⟨nxLocal, nyg, nxg, nyg, buildTile nxLocal nyg dflt inner⟩
          (t1, copy_field t1))
        ([.openFile true, .readHeader true, .allocField, .allocField,
          .scatter, .copyFieldCall], some tiles)

/-- C5: if the header line yields fewer than two integers (e.g. `# 3`),
`read_field` aborts the whole process group right after the header parse:
the trace ends at the abort, contains no collective call (no scatter) and
no field allocation, and no tiles are produced. -/
theorem C5_malformed_header_aborts {α : Type} (tf : TextFile α) (P : Nat)
    (dflt : α) (h : tf.header.length < 2) :
    read_field (some tf) P dflt
      = ([.openFile true, .readHeader true, .abort], none) ∧
    Event.scatter ∉ (read_field (some tf) P dflt).1 ∧
    Event.allocField ∉ (read_field (some tf) P dflt).1 ∧
    (read_field (some tf) P dflt).2 = none := by
  have hlt : (tf.header.take 2).length < 2 := by
    rw [List.length_take]; omega
  rw [read_field, if_pos hlt]
  refine ⟨rfl, ?_, ?_, rfl⟩ <;> simp

/-- Witness for C5: the header `# 3` (a single integer) aborts before any
collective, for two processes. -/
theorem C5_malformed_header_aborts_witness :
    read_field (some (⟨[3], []⟩ : TextFile Nat)) 2 0
      = ([.openFile true, .readHeader true, .abort], none) ∧
    Event.scatter ∉ (read_field (some (⟨[3], []⟩ : TextFile Nat)) 2 0).1 ∧
    Event.allocField ∉ (read_field (some (⟨[3], []⟩ : TextFile Nat)) 2 0).1 ∧
    (read_field (some (⟨[3], []⟩ : TextFile Nat)) 2 0).2 = none :=
  C5_malformed_header_aborts ⟨[3], []⟩ 2 0 (by decide)

/-- C9: `read_field` never tests the handle `fopen` returned; on an open
failure it still issues the header read on the invalid handle (undefined
behaviour in C, modelled as matching no items) and only then hits the
abort path.  The trace at the failing input contains the
invalid-handle read, contradicting the claim that the group-abort happens
rather than any read from the invalid handle. -/
theorem C9_fopen_failure_reads_invalid_handle :
    read_field (none : Option (TextFile Nat)) 2 0
      = ([.openFile false, .readHeader false, .abort], none) ∧
    Event.readHeader false ∈ (read_field (none : Option (TextFile Nat)) 2 0).1 := by
  exact ⟨rfl, by decide⟩

/- ### Ghost-mirroring lemmas for `buildTile`. -/

theorem loopUpdate_getD_at {β : Type} (e : β) (base n : Nat)
    (g : Nat → β → β) (d : List β) (j : Nat) (h1 : base ≤ j)
    (h2 : j < base + n) (hlen : j < d.length) :
    (loopUpdate e base n g d).getD j e = g (j - base) (d.getD j e) := by
  have h := loopUpdate_getD_inside e base n g d (j - base) (by omega) (by omega)
  rw [Nat.add_sub_cancel' h1] at h
  exact h

theorem getD_replicate_of_lt {α : Type} (n i : Nat) (a d : α) (h : i < n) :
    (List.replicate n a).getD i d = a := by
  rw [List.getD_eq_getElem _ _ (by simpa using h)]
  simp

theorem mirrorLR_length {α : Type} (ny : Nat) (dflt : α) (row : List α) :
    (mirrorLR ny dflt row).length = row.length := by
  simp [mirrorLR]

/-- After the column loop, the left ghost cell equals the adjacent
interior cell. -/
theorem mirrorLR_left {α : Type} (ny : Nat) (dflt : α) (row : List α)
    (hlen : row.length = ny + 2) (hny : 0 < ny) :
    (mirrorLR ny dflt row).getD 0 dflt = (mirrorLR ny dflt row).getD 1 dflt := by
  simp only [mirrorLR]
  rw [getD_set_ne _ (ny + 1) 0 _ _ (by omega),
    getD_set_ne _ (ny + 1) 1 _ _ (by omega),
    getD_set_self row 0 _ _ (by omega),
    getD_set_ne row 0 1 _ _ (by omega)]

/-- After the column loop, the right ghost cell equals the adjacent
interior cell. -/
theorem mirrorLR_right {α : Type} (ny : Nat) (dflt : α) (row : List α)
    (hlen : row.length = ny + 2) :
    (mirrorLR ny dflt row).getD (ny + 1) dflt
      = (mirrorLR ny dflt row).getD ny dflt := by
  simp only [mirrorLR]
  rw [getD_set_self _ (ny + 1) _ _ (by rw [List.length_set]; omega),
    getD_set_ne _ (ny + 1) ny _ _ (by omega)]

theorem setInterior_row_length {α : Type} (nx ny : Nat)
    (inner d : List (List α))
    (hd : ∀ j, j < d.length → (d.getD j []).length = ny + 2) :
    ∀ j, j < d.length → ((setInterior nx ny inner d).getD j []).length = ny + 2 := by
  intro j hj
  unfold setInterior
  by_cases hjr : 1 ≤ j ∧ j < 1 + nx
  · rw [loopUpdate_getD_at _ _ _ _ _ _ hjr.1 hjr.2 hj, writeAt_length]
    · exact hd j hj
    · have hxs : ((inner.getD (j - 1) []).take ny).length ≤ ny := by
        rw [List.length_take]; omega
      rw [hd j hj]; omega
  · rw [loopUpdate_getD_outside _ _ _ _ _ _ _ (by omega)]
    exact hd j hj

theorem mirrorCols_row_length {α : Type} (nx ny : Nat) (dflt : α)
    (d : List (List α))
    (hd : ∀ j, j < d.length → (d.getD j []).length = ny + 2) :
    ∀ j, j < d.length → ((mirrorCols nx ny dflt d).getD j []).length = ny + 2 := by
  intro j hj
  unfold mirrorCols
  by_cases hjr : 1 ≤ j ∧ j < 1 + nx
  · rw [loopUpdate_getD_at _ _ _ _ _ _ hjr.1 hjr.2 hj, mirrorLR_length]
    exact hd j hj
  · rw [loopUpdate_getD_outside _ _ _ _ _ _ _ (by omega)]
    exact hd j hj

/-- The interior rows `1 .. nx` of the column-mirrored array are exactly
the `mirrorLR` images of the rows before. -/
theorem mirrorCols_row_eq {α : Type} (nx ny : Nat) (dflt : α)
    (d : List (List α)) (j : Nat) (h1 : 1 ≤ j) (h2 : j < 1 + nx)
    (hj : j < d.length) :
    (mirrorCols nx ny dflt d).getD j [] = mirrorLR ny dflt (d.getD j []) := by
  unfold mirrorCols
  rw [loopUpdate_getD_at _ _ _ _ _ _ h1 h2 hj]

theorem mirrorRows_length {α : Type} (nx : Nat) (d : List (List α)) :
    (mirrorRows nx d).length = d.length := by
  simp [mirrorRows]

/-- Ghost-row/column structure of the row-mirroring applied after the
column-mirroring, for any array `d1` of `nx+2` rows of width `ny+2`:
the result keeps `nx+2` rows; each interior row `1 ≤ i ≤ nx` has its
left/right ghost cells equal to the adjacent interior cells; the top ghost
row equals interior row 1 and the bottom ghost row equals interior row
`nx`, as whole (already column-mirrored) rows. -/
theorem mirrorPipeline_ghosts {α : Type} (nx ny : Nat) (dflt : α)
    (d1 : List (List α)) (hnx : 0 < nx) (hny : 0 < ny)
    (hlen : d1.length = nx + 2)
    (hrow : ∀ j, j < d1.length → (d1.getD j []).length = ny + 2) :
    (mirrorRows nx (mirrorCols nx ny dflt d1)).length = nx + 2 ∧
    (∀ i, 1 ≤ i → i ≤ nx →
      ((mirrorRows nx (mirrorCols nx ny dflt d1)).getD i []).getD 0 dflt
        = ((mirrorRows nx (mirrorCols nx ny dflt d1)).getD i []).getD 1 dflt ∧
      ((mirrorRows nx (mirrorCols nx ny dflt d1)).getD i []).getD (ny + 1) dflt
        = ((mirrorRows nx (mirrorCols nx ny dflt d1)).getD i []).getD ny dflt) ∧
    (mirrorRows nx (mirrorCols nx ny dflt d1)).getD 0 []
      = (mirrorRows nx (mirrorCols nx ny dflt d1)).getD 1 [] ∧
    (mirrorRows nx (mirrorCols nx ny dflt d1)).getD (nx + 1) []
      = (mirrorRows nx (mirrorCols nx ny dflt d1)).getD nx [] := by
  have len2 : (mirrorCols nx ny dflt d1).length = nx + 2 := by
    unfold mirrorCols
    rw [loopUpdate_length, hlen]
  have hLR : ∀ j, 1 ≤ j → j ≤ nx →
      (mirrorCols nx ny dflt d1).getD j [] = mirrorLR ny dflt (d1.getD j []) := by
    intro j h1 h2
    exact mirrorCols_row_eq nx ny dflt d1 j h1 (by omega) (by rw [hlen]; omega)
  have ht0 : (mirrorRows nx (mirrorCols nx ny dflt d1)).getD 0 []
      = (mirrorCols nx ny dflt d1).getD 1 [] := by
    simp only [mirrorRows]
    rw [getD_set_ne _ (nx + 1) 0 _ _ (by omega),
      getD_set_self _ 0 _ _ (by rw [len2]; omega)]
  have hti : ∀ j, 1 ≤ j → j ≤ nx →
      (mirrorRows nx (mirrorCols nx ny dflt d1)).getD j []
        = (mirrorCols nx ny dflt d1).getD j [] := by
    intro j h1 h2
    simp only [mirrorRows]
    rw [getD_set_ne _ (nx + 1) j _ _ (by omega),
      getD_set_ne _ 0 j _ _ (by omega)]
  have httop : (mirrorRows nx (mirrorCols nx ny dflt d1)).getD (nx + 1) []
      = (mirrorCols nx ny dflt d1).getD nx [] := by
    simp only [mirrorRows]
    rw [getD_set_self _ (nx + 1) _ _ (by rw [List.length_set, len2]; omega),
      getD_set_ne _ 0 nx _ _ (by omega)]
  refine ⟨?_, ?_, ?_, ?_⟩
  · rw [mirrorRows_length, len2]
  · intro i h1 h2
    rw [hti i h1 h2, hLR i h1 h2]
    have hrl : (d1.getD i []).length = ny + 2 :=
      hrow i (by rw [hlen]; omega)
    exact ⟨mirrorLR_left ny dflt _ hrl hny, mirrorLR_right ny dflt _ hrl⟩
  · rw [ht0, hti 1 (le_refl 1) hnx]
  · rw [httop, hti nx hnx (le_refl nx)]

/-- The tile built by `buildTile` satisfies the ghost-mirroring structure: `nx+2` rows,
left/right ghosts mirroring the adjacent interior cell on every interior
row, and top/bottom ghost rows equal to the adjacent interior rows over
the full padded width. -/
theorem buildTile_ghosts {α : Type} (nx ny : Nat) (dflt : α)
    (inner : List (List α)) (hnx : 0 < nx) (hny : 0 < ny) :
    (buildTile nx ny dflt inner).length = nx + 2 ∧
    (∀ i, 1 ≤ i → i ≤ nx →
      ((buildTile nx ny dflt inner).getD i []).getD 0 dflt
        = ((buildTile nx ny dflt inner).getD i []).getD 1 dflt ∧
      ((buildTile nx ny dflt inner).getD i []).getD (ny + 1) dflt
        = ((buildTile nx ny dflt inner).getD i []).getD ny dflt) ∧
    (buildTile nx ny dflt inner).getD 0 []
      = (buildTile nx ny dflt inner).getD 1 [] ∧
    (buildTile nx ny dflt inner).getD (nx + 1) []
      = (buildTile nx ny dflt inner).getD nx [] := by
  have len0 : (allocPadded nx ny dflt).length = nx + 2 := by
    simp [allocPadded]
  have hrow0 : ∀ j, j < (allocPadded nx ny dflt).length →
      ((allocPadded nx ny dflt).getD j []).length = ny + 2 := by
    intro j hj
    rw [len0] at hj
    unfold allocPadded
    rw [getD_replicate_of_lt _ _ _ _ hj, List.length_replicate]
  have len1 : (setInterior nx ny inner (allocPadded nx ny dflt)).length
      = nx + 2 := by
    unfold setInterior
    rw [loopUpdate_length, len0]
  have hrow1 : ∀ j, j < (setInterior nx ny inner (allocPadded nx ny dflt)).length →
      (((setInterior nx ny inner (allocPadded nx ny dflt)).getD j []).length = ny + 2) := by
    intro j hj
    refine setInterior_row_length nx ny inner _ hrow0 j ?_
    rw [len0, ← len1]
    exact hj
  exact mirrorPipeline_ghosts nx ny dflt _ hnx hny len1 hrow1

/-- The pair of tiles (current and next-step buffer) that `read_field`
produced for rank `r`. -/
def loadedTile {α : Type} (input : Option (TextFile α)) (P : Nat)
    (dflt : α) (r : Nat) : Field α × Field α :=
  ((read_field input P dflt).2.getD []).getD r (defaultField α, defaultField α)

/-- C7: after `read_field` completes on a well-formed input, rank `r`'s
two tiles (current and next-step buffer) are identical; every left/right
ghost cell of an interior row equals its adjacent interior cell; the
top/bottom ghost rows equal the adjacent interior rows over the full
padded width (row mirroring is applied after column mirroring); hence
each corner equals the row-mirrored value there, which is the nearest
interior corner cell.  `copy_field` and `parallel_setup` are modelled
from the spec. -/
theorem C7_scatter_ghost_invariant {α : Type} (tf : TextFile α)
    (P nxL ny r : Nat) (dflt : α)
    (hP : 0 < P) (hnx : 0 < nxL) (hny : 0 < ny)
    (hheader : tf.header = [((P * nxL : Nat) : Int), ((ny : Nat) : Int)])
    (_hvals : tf.values.length = P * nxL * ny)
    (hr : r < P) :
    (loadedTile (some tf) P dflt r).2 = (loadedTile (some tf) P dflt r).1 ∧
    (loadedTile (some tf) P dflt r).1.data.length = nxL + 2 ∧
    (∀ i, 1 ≤ i → i ≤ nxL →
      (((loadedTile (some tf) P dflt r).1.data.getD i []).getD 0 dflt
        = ((loadedTile (some tf) P dflt r).1.data.getD i []).getD 1 dflt) ∧
      (((loadedTile (some tf) P dflt r).1.data.getD i []).getD (ny + 1) dflt
        = ((loadedTile (some tf) P dflt r).1.data.getD i []).getD ny dflt)) ∧
    (loadedTile (some tf) P dflt r).1.data.getD 0 []
      = (loadedTile (some tf) P dflt r).1.data.getD 1 [] ∧
    (loadedTile (some tf) P dflt r).1.data.getD (nxL + 1) []
      = (loadedTile (some tf) P dflt r).1.data.getD nxL [] ∧
    ((loadedTile (some tf) P dflt r).1.data.getD 0 []).getD 0 dflt
      = ((loadedTile (some tf) P dflt r).1.data.getD 1 []).getD 1 dflt ∧
    ((loadedTile (some tf) P dflt r).1.data.getD 0 []).getD (ny + 1) dflt
      = ((loadedTile (some tf) P dflt r).1.data.getD 1 []).getD ny dflt ∧
    ((loadedTile (some tf) P dflt r).1.data.getD (nxL + 1) []).getD 0 dflt
      = ((loadedTile (some tf) P dflt r).1.data.getD nxL []).getD 1 dflt ∧
    ((loadedTile (some tf) P dflt r).1.data.getD (nxL + 1) []).getD (ny + 1) dflt
      = ((loadedTile (some tf) P dflt r).1.data.getD nxL []).getD ny dflt := by
  have hcond : ¬ (tf.header.take 2).length < 2 := by
    rw [hheader]; simp
  have hdiv : P * nxL / P = nxL := Nat.mul_div_cancel_left nxL hP
  have htile : loadedTile (some tf) P dflt r
      = (⟨nxL, ny, P * nxL, ny, buildTile nxL ny dflt
            (reshape nxL ny ((tf.values.drop (r * (nxL * ny))).take (nxL * ny)))⟩,
         ⟨nxL, ny, P * nxL, ny, buildTile nxL ny dflt
            (reshape nxL ny ((tf.values.drop (r * (nxL * ny))).take (nxL * ny)))⟩) := by
    unfold loadedTile
    simp only [read_field, if_neg hcond, hheader, List.getD_cons_zero,
      List.getD_cons_succ, Int.toNat_natCast, parallel_setup, hdiv,
      Option.getD_some, copy_field]
    rw [List.getD_eq_getElem _ _ (by simpa using hr)]
    simp
  obtain ⟨hlen, hmid, htop, hbot⟩ := buildTile_ghosts nxL ny dflt
    (reshape nxL ny ((tf.values.drop (r * (nxL * ny))).take (nxL * ny))) hnx hny
  rw [htile]
  refine ⟨rfl, hlen, hmid, htop, hbot, ?_, ?_, ?_, ?_⟩
  · rw [htop]; exact (hmid 1 (le_refl 1) hnx).1
  · rw [htop]; exact (hmid 1 (le_refl 1) hnx).2
  · rw [hbot]; exact (hmid nxL hnx (le_refl nxL)).1
  · rw [hbot]; exact (hmid nxL hnx (le_refl nxL)).2

/-- Witness for C7: a 2-process load of the 2×1 file `# 2 1` / `10 20`,
checked for rank 0: its two tiles coincide and the top ghost row equals
interior row 1. -/
theorem C7_scatter_ghost_invariant_witness :
    (loadedTile (some (⟨[2, 1], [10, 20]⟩ : TextFile Nat)) 2 0 0).2
      = (loadedTile (some (⟨[2, 1], [10, 20]⟩ : TextFile Nat)) 2 0 0).1 ∧
    (loadedTile (some (⟨[2, 1], [10, 20]⟩ : TextFile Nat)) 2 0 0).1.data.getD 0 []
      = (loadedTile (some (⟨[2, 1], [10, 20]⟩ : TextFile Nat)) 2 0 0).1.data.getD 1 [] := by
  obtain ⟨h1, _, _, h4, _⟩ := C7_scatter_ghost_invariant ⟨[2, 1], [10, 20]⟩
    2 1 1 0 0 (by decide) (by decide) (by decide) (by decide) (by decide)
    (by decide)
  exact ⟨h1, h4⟩

/- ### Visualization gather (`write_field`, io.c lines 14-60). -/

/-- Interior row `i` of rank `p`'s tile, as copied by both the senders and
rank 0 in `write_field`: the `ny` cells starting at
`&temperature->data[i+1][1]`. -/
def interiorRow {α : Type} (fields : List (Field α)) (p i ny : Nat) :
    List α :=
  (((fields.getD p (defaultField α)).data.getD (i + 1) []).drop 1).take ny

/-- The receive loop of `write_field` (lines 38-44): for `k = 0 .. m-1`,
in increasing rank order, rank `k+1`'s interior tile is received and
copied into rows `(k+1)*nx .. (k+1)*nx + nx - 1` of the global buffer. -/
def recvLoop {α : Type} (nx ny : Nat) (fields : List (Field α)) (m : Nat)
    (start : List (List α)) : List (List α) :=
  (List.range m).foldl
    (fun fd k => loopUpdate [] ((k + 1) * nx) nx
      (fun i _ => interiorRow fields (k + 1) i ny) fd) start

/-- The global buffer rank 0 assembles in `write_field` and passes to
`save_png`: `height = nx * P` rows of width `ny` (`malloc_2d`, unknown
contents `dflt`); rank 0 first copies its own interior into rows
`0 .. nx-1`, then receives ranks `1 .. P-1` in increasing rank order. -/
def write_field_full {α : Type} (P nx ny : Nat) (dflt : α)
    (fields : List (Field α)) : List (List α) :=
  recvLoop nx ny fields (P - 1)
    (loopUpdate [] 0 nx (fun i _ => interiorRow fields 0 i ny)
      (List.replicate (nx * P) (List.replicate ny dflt)))

theorem recvLoop_succ {α : Type} (nx ny : Nat) (fields : List (Field α))
    (m : Nat) (start : List (List α)) :
    recvLoop nx ny fields (m + 1) start
      = loopUpdate [] ((m + 1) * nx) nx
          (fun i _ => interiorRow fields (m + 1) i ny)
          (recvLoop nx ny fields m start) := by
  unfold recvLoop
  rw [List.range_succ, List.foldl_append]
  rfl

theorem recvLoop_length {α : Type} (nx ny : Nat) (fields : List (Field α))
    (m : Nat) (start : List (List α)) :
    (recvLoop nx ny fields m start).length = start.length := by
  induction m with
  | zero => rfl
  | succ m ih => rw [recvLoop_succ, loopUpdate_length, ih]

/-- The receive loop never touches rank 0's rows `0 .. nx-1`. -/
theorem recvLoop_getD_low {α : Type} (nx ny : Nat) (fields : List (Field α))
    (m : Nat) (start : List (List α)) (j : Nat) (hj : j < nx) :
    (recvLoop nx ny fields m start).getD j [] = start.getD j [] := by
  induction m with
  | zero => rfl
  | succ m ih =>
      rw [recvLoop_succ]
      have hb : (m + 1) * nx = m * nx + nx := by ring
      rw [loopUpdate_getD_outside _ _ _ _ _ _ _ (Or.inl (by omega))]
      exact ih

/-- After `m` iterations of the receive loop, row `p*nx + i` holds rank
`p`'s interior row `i`, for every received rank `1 ≤ p ≤ m`. -/
theorem recvLoop_getD_block {α : Type} (nx ny : Nat) (fields : List (Field α))
    (m : Nat) (start : List (List α)) (p i : Nat) (hp1 : 1 ≤ p) (hpm : p ≤ m)
    (hi : i < nx) (hidx : p * nx + i < start.length) :
    (recvLoop nx ny fields m start).getD (p * nx + i) []
      = interiorRow fields p i ny := by
  induction m with
  | zero => omega
  | succ m ih =>
      rw [recvLoop_succ]
      rcases Nat.lt_or_ge m p with hmp | hmp
      · have hpeq : p = m + 1 := by omega
        subst hpeq
        rw [loopUpdate_getD_at _ _ _ _ _ ((m + 1) * nx + i) (by omega)
          (by omega) (by rw [recvLoop_length]; exact hidx)]
        rw [Nat.add_sub_cancel_left]
      · have hb1 : (p + 1) * nx = p * nx + nx := by ring
        have hb2 : (p + 1) * nx ≤ (m + 1) * nx :=
          Nat.mul_le_mul_right _ (by omega)
        rw [loopUpdate_getD_outside _ _ _ _ _ _ _ (Or.inl (by omega))]
        exact ih hmp

/-- Row `p*nx + i` of the assembled global buffer is rank `p`'s interior
row `i`, for every rank `p < P`. -/
theorem write_field_full_getD {α : Type} (P nx ny : Nat) (dflt : α)
    (fields : List (Field α)) (p i : Nat) (hp : p < P) (hi : i < nx) :
    (write_field_full P nx ny dflt fields).getD (p * nx + i) []
      = interiorRow fields p i ny := by
  unfold write_field_full
  have hb1 : (p + 1) * nx = p * nx + nx := by ring
  have hb2 : (p + 1) * nx ≤ P * nx := Nat.mul_le_mul_right _ (by omega)
  have hcomm : P * nx = nx * P := Nat.mul_comm _ _
  rcases Nat.eq_zero_or_pos p with hp0 | hp1
  · subst hp0
    simp only [Nat.zero_mul, Nat.zero_add]
    rw [recvLoop_getD_low _ _ _ _ _ _ hi,
      loopUpdate_getD_at _ _ _ _ _ i (by omega) (by omega)
        (by rw [List.length_replicate]; omega)]
    rw [Nat.sub_zero]
  · rw [recvLoop_getD_block _ _ _ _ _ _ _ hp1 (by omega) hi
      (by rw [loopUpdate_length, List.length_replicate]; omega)]

theorem interior_length {α : Type} (f : Field α) (h : f.wellFormed) :
    f.interior.length = f.nx := by
  unfold Field.interior
  rw [List.length_map, List.length_take, List.length_drop, h.1]
  omega

theorem interior_getElem {α : Type} (f : Field α) (h : f.wellFormed) (i : Nat)
    (hi : i < f.interior.length) :
    f.interior.get ⟨i, hi⟩ = ((f.data.getD (i + 1) []).drop 1).take f.ny := by
  have hi' : i < f.nx := by rw [← interior_length f h]; exact hi
  have hd : i + 1 < f.data.length := by rw [h.1]; omega
  simp only [List.get_eq_getElem, Field.interior]
  rw [List.getElem_map, List.getElem_take, List.getElem_drop,
    List.getD_eq_getElem _ _ hd]
  simp only [Nat.add_comm 1 i]

/-- C8: after the receive loop on rank 0, row block `p` (rows
`p*nx .. (p+1)*nx - 1`) of the assembled global buffer equals rank `p`'s
interior tile with ghost layers excluded, for every rank, and the buffer
passed to the encoder has dimensions `rows_full × cols_full` (under the
uniform decomposition `rows_full = nx * P`, `cols_full = ny`). -/
theorem C8_gather_row_blocks {α : Type} (P nx ny : Nat) (dflt : α)
    (fields : List (Field α)) (_hP : 0 < P) (hnx : 0 < nx)
    (hlenf : fields.length = P)
    (hwf : ∀ f ∈ fields, f.wellFormed ∧ f.nx = nx ∧ f.ny = ny)
    (hfull : (fields.getD 0 (defaultField α)).nx_full = nx * P)
    (hcols : (fields.getD 0 (defaultField α)).ny_full = ny) :
    (write_field_full P nx ny dflt fields).length
      = (fields.getD 0 (defaultField α)).nx_full ∧
    (∀ row ∈ write_field_full P nx ny dflt fields,
      row.length = (fields.getD 0 (defaultField α)).ny_full) ∧
    ∀ p, p < P →
      ((write_field_full P nx ny dflt fields).drop (p * nx)).take nx
        = (fields.getD p (defaultField α)).interior := by
  have hreslen : (write_field_full P nx ny dflt fields).length = nx * P := by
    unfold write_field_full
    rw [recvLoop_length, loopUpdate_length, List.length_replicate]
  have hmemwf : ∀ p, p < P → (fields.getD p (defaultField α)).wellFormed ∧
      (fields.getD p (defaultField α)).nx = nx ∧
      (fields.getD p (defaultField α)).ny = ny := by
    intro p hp
    apply hwf
    rw [List.getD_eq_getElem _ _ (by omega)]
    exact List.getElem_mem _
  have hrowlen : ∀ p i, p < P → i < nx →
      (interiorRow fields p i ny).length = ny := by
    intro p i hp hi
    obtain ⟨hwfp, hnxp, hnyp⟩ := hmemwf p hp
    have hd : i + 1 < (fields.getD p (defaultField α)).data.length := by
      rw [hwfp.1, hnxp]; omega
    have hdl : ((fields.getD p (defaultField α)).data.getD (i + 1) []).length
        = ny + 2 := by
      rw [← hnyp]
      apply hwfp.2
      rw [List.getD_eq_getElem _ _ hd]
      exact List.getElem_mem _
    unfold interiorRow
    rw [List.length_take, List.length_drop, hdl]
    omega
  refine ⟨by rw [hreslen, hfull], ?_, ?_⟩
  · intro row hrow
    obtain ⟨j, hj, heq⟩ := List.mem_iff_getElem.mp hrow
    rw [hreslen] at hj
    have hjP : j / nx < P := by
      rw [Nat.div_lt_iff_lt_mul hnx]
      have : nx * P = P * nx := Nat.mul_comm _ _
      omega
    have hmod : j % nx < nx := Nat.mod_lt _ hnx
    have hdm := Nat.div_add_mod j nx
    have hcm : nx * (j / nx) = j / nx * nx := Nat.mul_comm _ _
    have hj' : j = j / nx * nx + j % nx := by omega
    have hgd : (write_field_full P nx ny dflt fields).getD j [] = row := by
      rw [List.getD_eq_getElem _ _ (by rw [hreslen]; exact hj)]
      exact heq
    rw [← hgd, hj', write_field_full_getD P nx ny dflt fields _ _ hjP hmod,
      hrowlen _ _ hjP hmod, hcols]
  · intro p hp
    have hb1 : (p + 1) * nx = p * nx + nx := by ring
    have hb2 : (p + 1) * nx ≤ P * nx := Nat.mul_le_mul_right _ (by omega)
    have hcm : P * nx = nx * P := Nat.mul_comm _ _
    obtain ⟨hwfp, hnxp, hnyp⟩ := hmemwf p hp
    apply List.ext_getElem
    · rw [List.length_take, List.length_drop, hreslen,
        interior_length _ hwfp, hnxp]
      omega
    · intro i h1 h2
      have hi : i < nx := by
        rw [List.length_take, List.length_drop, hreslen] at h1
        omega
      rw [List.getElem_take, List.getElem_drop,
        ← List.get_eq_getElem _ ⟨i, h2⟩, interior_getElem _ hwfp i h2, hnyp]
      have hidx : p * nx + i < (write_field_full P nx ny dflt fields).length := by
        rw [hreslen]; omega
      rw [← List.getD_eq_getElem _ ([] : List α) hidx,
        write_field_full_getD P nx ny dflt fields p i hp hi]
      rfl

/-- Witness for C8: the 2-process gather of the concrete 1×1 tiles puts
rank 0's interior in row 0 and rank 1's interior in row 1 of a 2×1
buffer. -/
theorem C8_gather_row_blocks_witness :
    (write_field_full 2 1 1 0 [cF0, cF1]).length
      = ([cF0, cF1].getD 0 (defaultField Nat)).nx_full ∧
    (∀ row ∈ write_field_full 2 1 1 0 [cF0, cF1],
      row.length = ([cF0, cF1].getD 0 (defaultField Nat)).ny_full) ∧
    ∀ p, p < 2 →
      ((write_field_full 2 1 1 0 [cF0, cF1]).drop (p * 1)).take 1
        = ([cF0, cF1].getD p (defaultField Nat)).interior :=
  C8_gather_row_blocks 2 1 1 0 [cF0, cF1] (by decide) (by decide)
    (by decide) (by decide) (by decide) (by decide)

end HeatRestart
